import Mathlib

/-!
Verification of the `FsNode` filesystem-tree model of `src/fs_node.rs`.

Modelling conventions (shallow embedding):
* An `Rc<RefCell<FsNode>>` handle is an index (`Nat`) into a `Store`, the arena of
  all allocated cells; `Rc::new` is `alloc`, `borrow` is `st[i]?`, `borrow_mut`
  plus a field update is `storeModify`.
* `Weak<RefCell<FsNode>>` (the parent back-reference) is also an index; `Weak`s are
  never upgraded by the code under verification, so no liveness bookkeeping is needed.
* `PathBuf` is an abstract type `P` with decidable equality; the filesystem queries
  the code performs (`file_name`, `to_str`, `is_file`, `read_dir`) are an oracle `Fs`.
  `is_dir` is part of the oracle only so that specification-level statements about
  "exists as a directory" can be expressed; `create_node_from_path` never consults it,
  exactly as in the source.
* Functions that take `&mut self` are state-passing: they return their result paired
  with the (possibly updated) store.
* The builder's recursion over the real directory tree is bounded by explicit fuel;
  a run of the real program corresponds to any sufficiently large fuel (for a real
  filesystem the recursion depth is finite).
-/

set_option autoImplicit false

namespace MC

/-- Kind of a node: `FsNodeType` in `src/fs_node.rs` (`File` or `Directory`). -/
inductive FsNodeType where
  | File
  | Directory
deriving DecidableEq, Repr

/-- Embedding of the `FsNode` struct: `name`, `path`, `node_type`, the optional weak
parent handle, and the ordered list of owned child handles. -/
structure FsNode (P : Type) where
  name : String
  path : P
  node_type : FsNodeType
  parent : Option Nat
  children : List Nat
deriving DecidableEq, Repr

/-- The arena of allocated cells; index `i` plays the role of an `Rc<RefCell<FsNode>>`. -/
abbrev Store (P : Type) := List (FsNode P)

/-- `Rc::new(RefCell::new(node))`: allocate a fresh cell, returning the new store and
the handle of the fresh cell. -/
def alloc {P : Type} (st : Store P) (node : FsNode P) : Store P × Nat :=
  (st ++ [node], st.length)

/-- Mutate the cell behind handle `i` (`borrow_mut` followed by a field update).
A dangling handle leaves the store unchanged; the code never produces one. -/
def storeModify {P : Type} (st : Store P) (i : Nat) (f : FsNode P → FsNode P) : Store P :=
  match st[i]? with
  | some n => st.set i (f n)
  | none => st

/-- `FsNode::new`: the raw constructor, no validation. -/
def FsNode.new {P : Type} (name : String) (path : P) (fs_node_type : FsNodeType)
    (parent : Option Nat) (children : List Nat) : FsNode P :=
  { name := name, path := path, node_type := fs_node_type,
    parent := parent, children := children }

/-- `FsNode::add_child`: wrap the child value in a fresh cell, point its `parent` at
the given parent handle (`Rc::downgrade(parent)`), then push the fresh handle onto the
parent's `children`. -/
def add_child {P : Type} (st : Store P) (parent : Nat) (child : FsNode P) : Store P :=
  let a := alloc st { child with parent := some parent }
  storeModify a.1 parent (fun n => { n with children := n.children ++ [a.2] })

/-- The matching test shared by `find_node` and `remove_node`: borrow the child and
check `node.path == path && (fs_node_type.is_none() || fs_node_type == Some(node.node_type))`.
A dangling child handle matches nothing (the code cannot encounter one). -/
def node_matches {P : Type} [DecidableEq P] (st : Store P) (path : P)
    (fs_node_type : Option FsNodeType) (child : Nat) : Bool :=
  match st[child]? with
  | some node =>
      decide (node.path = path) &&
        (fs_node_type.isNone || decide (fs_node_type = some node.node_type))
  | none => false

/-- `FsNode::find_node`: linear scan of the direct children of the node behind `i`,
returning a clone of the first matching child handle.  The `&mut self` receiver is
reflected by returning the store, which the body never modifies. -/
def find_node {P : Type} [DecidableEq P] (st : Store P) (i : Nat) (path : P)
    (fs_node_type : Option FsNodeType) : Option Nat × Store P :=
  match st[i]? with
  | some self => (self.children.find? (node_matches st path fs_node_type), st)
  | none => (none, st)

/-- `FsNode::remove_node`: find the position of the first matching direct child,
remove it from `children` (`Vec::remove`, stable) and return its handle. -/
def remove_node {P : Type} [DecidableEq P] (st : Store P) (i : Nat) (path : P)
    (fs_node_type : Option FsNodeType) : Option Nat × Store P :=
  match st[i]? with
  | some self =>
      match self.children.findIdx? (node_matches st path fs_node_type) with
      | some pos =>
          (self.children[pos]?, st.set i { self with children := self.children.eraseIdx pos })
      | none => (none, st)
  | none => (none, st)

/-- The filesystem oracle: exactly the queries `create_node_from_path` performs.
`file_name` is `Path::file_name` (`none` when the path has no final component),
`to_str` is `OsStr::to_str` (`none` when the component is not valid text),
`is_file` is `Path::is_file`, and `read_dir` is `std::fs::read_dir` followed by
iterating the entries: `none` when enumeration itself fails, otherwise the list of
per-entry results, an entry being `none` when its `DirEntry` result was an `Err`
and `some p` (with `p = entry.path()`) otherwise.  `is_dir` is `Path::is_dir`; the
source never calls it, it is present only so that specification statements can
speak about "exists as a directory". -/
structure Fs (P : Type) (O : Type) where
  file_name : P → Option O
  to_str : O → Option String
  is_file : P → Bool
  is_dir : P → Bool
  read_dir : P → Option (List (Option P))

/-- The `for` loop of `create_node_from_path`: for each `Ok(entry)` run the
recursive build (`build`, which is `create_node_from_path` one fuel level down with
the enclosing node as parent) and, on success, push the child handle onto the
enclosing node's `children`; `Err` entries and failed builds are skipped. -/
def build_entries {P : Type} (build : P → Store P → Option Nat × Store P)
    (node_id : Nat) : List (Option P) → Store P → Store P
  | [], st => st
  | none :: entries, st => build_entries build node_id entries st
  | some child_path :: entries, st =>
      match build child_path st with
      | (some child_id, st1) =>
          build_entries build node_id entries
            (storeModify st1 node_id (fun n => { n with children := n.children ++ [child_id] }))
      | (none, st1) => build_entries build node_id entries st1

/-- `FsNode::create_node_from_path`: derive the name from the path's final component
(returning `none` when there is no component or it is not valid text), classify via
`path.is_file()`, allocate the node with empty children, and, for a directory,
enumerate and recursively attach children, swallowing enumeration failure.  The
extra fuel argument bounds the recursion depth; any real run is represented by every
sufficiently large fuel. -/
def create_node_from_path {P O : Type} [DecidableEq P] (fs : Fs P O) :
    Nat → P → Option Nat → Store P → Option Nat × Store P
  | 0, _, _, st => (none, st)
  | fuel + 1, path, parent, st =>
      match fs.file_name path with
      | none => (none, st)
      | some file_name =>
          match fs.to_str file_name with
          | none => (none, st)
          | some name =>
              let node_type := if fs.is_file path then FsNodeType.File else FsNodeType.Directory
              let a := alloc st (FsNode.new name path node_type parent [])
              if node_type = FsNodeType.Directory then
                match fs.read_dir path with
                | some entries =>
                    (some a.2,
                      build_entries (fun p s => create_node_from_path fs fuel p (some a.2) s)
                        a.2 entries a.1)
                | none => (some a.2, a.1)
              else
                (some a.2, a.1)

/-- Specification-level phrasing of the matching rule: child handle `c` resolves to a
node whose path is exactly `path`, and the kind filter is unset or equals its kind. -/
def ChildMatches {P : Type} [DecidableEq P] (st : Store P) (path : P)
    (k : Option FsNodeType) (c : Nat) : Prop :=
  ∃ node, st[c]? = some node ∧ node.path = path ∧ (k = none ∨ k = some node.node_type)

theorem node_matches_iff {P : Type} [DecidableEq P] (st : Store P) (path : P)
    (k : Option FsNodeType) (c : Nat) :
    node_matches st path k c = true ↔ ChildMatches st path k c := by
  unfold node_matches ChildMatches
  cases h : st[c]? with
  | none => simp
  | some node =>
      simp [Bool.and_eq_true, Bool.or_eq_true, decide_eq_true_iff, Option.isNone_iff_eq_none]

theorem find_split {α : Type} (p : α → Bool) (l : List α) (a : α)
    (h : l.find? p = some a) :
    ∃ l₁ l₂, l = l₁ ++ a :: l₂ ∧ p a = true ∧ ∀ x ∈ l₁, p x = false := by
  induction l with
  | nil => simp at h
  | cons b l ih =>
      rw [List.find?_cons] at h
      cases hp : p b with
      | true =>
          rw [hp] at h
          exact ⟨[], l, by simpa using (Option.some_injective _ h).symm ▸ rfl, by
            cases Option.some_injective _ h; exact hp, by simp⟩
      | false =>
          rw [hp] at h
          obtain ⟨l₁, l₂, rfl, hpa, hpre⟩ := ih h
          exact ⟨b :: l₁, l₂, rfl, hpa, by
            intro x hx
            rcases List.mem_cons.mp hx with rfl | hx
            · exact hp
            · exact hpre x hx⟩

theorem findIdx_go_split {α : Type} (p : α → Bool) (l : List α) (i pos : Nat)
    (h : l.findIdx? p i = some pos) :
    ∃ l₁ l₂ a, l = l₁ ++ a :: l₂ ∧ l₁.length + i = pos ∧ p a = true ∧
      ∀ x ∈ l₁, p x = false := by
  induction l generalizing i with
  | nil => simp [List.findIdx?] at h
  | cons b l ih =>
      rw [List.findIdx?_cons] at h
      by_cases hp : p b = true
      · rw [if_pos hp] at h
        exact ⟨[], l, b, rfl, by simpa using Option.some_injective _ h, hp, by simp⟩
      · rw [if_neg hp] at h
        obtain ⟨l₁, l₂, a, rfl, hlen, hpa, hpre⟩ := ih (i + 1) h
        refine ⟨b :: l₁, l₂, a, rfl, by simpa using Nat.succ_add_eq_add_succ l₁.length i ▸ hlen, hpa, ?_⟩
        intro x hx
        rcases List.mem_cons.mp hx with rfl | hx
        · exact Bool.not_eq_true _ ▸ (by simpa using hp)
        · exact hpre x hx

theorem getElem?_append_middle {α : Type} (l₁ l₂ : List α) (a : α) :
    (l₁ ++ a :: l₂)[l₁.length]? = some a := by
  induction l₁ with
  | nil => simp
  | cons b l₁ ih => simpa using ih

theorem eraseIdx_append_middle {α : Type} (l₁ l₂ : List α) (a : α) :
    (l₁ ++ a :: l₂).eraseIdx l₁.length = l₁ ++ l₂ := by
  induction l₁ with
  | nil => rfl
  | cons b l₁ ih => simpa using ih

/-- Updating only the `children` field of the node behind `i` does not change which
children match: the matching test reads only `path` and `node_type`. -/
theorem node_matches_set_children {P : Type} [DecidableEq P] (st : Store P) (i : Nat)
    (self : FsNode P) (hself : st[i]? = some self) (cc : List Nat) (path : P)
    (k : Option FsNodeType) (c : Nat) :
    node_matches (st.set i { self with children := cc }) path k c = node_matches st path k c := by
  unfold node_matches
  by_cases hc : i = c
  · subst hc
    have hi : i < st.length := (List.getElem?_eq_some.mp hself).1
    rw [List.getElem?_set_self hi, hself]
  · rw [List.getElem?_set_ne hc]

/-- C1: `find_node(path, kind)` returns a handle iff some direct child of the node has
exactly that path and the kind filter is unset or equals that child's kind; otherwise it
returns nothing (in particular the search never descends below direct children), and a
returned handle is the first matching child in children order. -/
theorem find_node_exact {P : Type} [DecidableEq P] (st : Store P) (i : Nat) (path : P)
    (k : Option FsNodeType) (self : FsNode P) (hself : st[i]? = some self) :
    (((find_node st i path k).1 ≠ none) ↔ ∃ c ∈ self.children, ChildMatches st path k c) ∧
    (∀ c, (find_node st i path k).1 = some c →
      ∃ l₁ l₂, self.children = l₁ ++ c :: l₂ ∧ ChildMatches st path k c ∧
        ∀ x ∈ l₁, ¬ ChildMatches st path k x) := by
  have hfn : find_node st i path k = (self.children.find? (node_matches st path k), st) := by
    unfold find_node; rw [hself]
  rw [hfn]
  constructor
  · constructor
    · intro hne
      cases hfind : self.children.find? (node_matches st path k) with
      | none => exact absurd hfind hne
      | some a =>
          exact ⟨a, List.mem_of_find?_eq_some hfind,
            (node_matches_iff st path k a).mp (List.find?_some hfind)⟩
    · rintro ⟨c, hc, hm⟩ heq
      exact absurd ((node_matches_iff st path k c).mpr hm)
        (by simpa using List.find?_eq_none.mp heq c hc)
  · intro c hc
    obtain ⟨l₁, l₂, heq, hpa, hpre⟩ := find_split _ _ _ hc
    exact ⟨l₁, l₂, heq, (node_matches_iff st path k c).mp hpa, fun x hx hm =>
      by simpa [(node_matches_iff st path k x).mpr hm] using hpre x hx⟩

/-- Concrete store used by the witnesses: a root directory (handle 0) with a file child
(handle 1, path 5) and a directory child (handle 2, path 6). -/
def demoStore : Store Nat :=
  [⟨"r", 0, .Directory, none, [1, 2]⟩,
   ⟨"a", 5, .File, some 0, []⟩,
   ⟨"b", 6, .Directory, some 0, []⟩]

theorem find_node_exact_witness :
    (((find_node demoStore 0 (5 : Nat) (some .File)).1 ≠ none) ↔
      ∃ c ∈ [1, 2], ChildMatches demoStore 5 (some .File) c) ∧
    (∀ c, (find_node demoStore 0 (5 : Nat) (some .File)).1 = some c →
      ∃ l₁ l₂, [1, 2] = l₁ ++ c :: l₂ ∧ ChildMatches demoStore 5 (some .File) c ∧
        ∀ x ∈ l₁, ¬ ChildMatches demoStore 5 (some .File) x) :=
  find_node_exact demoStore 0 5 (some .File) ⟨"r", 0, .Directory, none, [1, 2]⟩ rfl

/-- C10: `find_node` mutates nothing: the whole store — hence the receiving node's name,
path, kind, parent and children — is returned exactly as it was, on hits and misses. -/
theorem find_node_frame {P : Type} [DecidableEq P] (st : Store P) (i : Nat) (path : P)
    (k : Option FsNodeType) : (find_node st i path k).2 = st := by
  unfold find_node
  cases st[i]? <;> rfl

/-- C8: when no direct child matches the requested path and kind, `remove_node` reports
"not found" and leaves the store — in particular the node's children — unchanged. -/
theorem remove_node_miss {P : Type} [DecidableEq P] (st : Store P) (i : Nat) (path : P)
    (k : Option FsNodeType) (self : FsNode P) (hself : st[i]? = some self)
    (hmiss : ∀ c ∈ self.children, ¬ ChildMatches st path k c) :
    remove_node st i path k = (none, st) := by
  have hidx : self.children.findIdx? (node_matches st path k) = none :=
    List.findIdx?_eq_none_iff.mpr fun c hc => by
      cases hm : node_matches st path k c with
      | false => rfl
      | true => exact absurd ((node_matches_iff st path k c).mp hm) (hmiss c hc)
  simp only [remove_node, hself, hidx]

instance {P : Type} [DecidableEq P] (st : Store P) (path : P) (k : Option FsNodeType)
    (c : Nat) : Decidable (ChildMatches st path k c) :=
  decidable_of_iff _ (node_matches_iff st path k c)

theorem remove_node_miss_witness :
    remove_node demoStore 0 (7 : Nat) none = (none, demoStore) :=
  remove_node_miss demoStore 0 7 none ⟨"r", 0, .Directory, none, [1, 2]⟩ rfl (by decide)

/-- Store with two distinct cells (handles 1 and 2) that carry the same path and kind,
both children of the root: the raw constructor performs no validation, so such a node
is constructible even though the builder never produces one. -/
def dupStore : Store Nat :=
  [⟨"r", 0, .Directory, none, [1, 2]⟩,
   ⟨"a", 5, .File, some 0, []⟩,
   ⟨"a", 5, .File, some 0, []⟩]

/-- C2 counterexample: on a node with two matching children, `remove_node` succeeds
(removing the first match), yet a subsequent `find_node` for the same path and kind on
the same node still returns a handle — the claim's final conjunct fails as stated for
arbitrary nodes. -/
theorem remove_node_find_after_dup :
    (remove_node dupStore 0 (5 : Nat) (some .File)).1 = some 1 ∧
    (find_node (remove_node dupStore 0 (5 : Nat) (some .File)).2 0 (5 : Nat)
      (some .File)).1 = some 2 := by
  decide

/-- C2 (amended): when `remove_node(path, kind)` succeeds on a node at most one of whose
children matches the path/kind (the sibling path-uniqueness invariant guarantees this for
built trees), the children count decreases by exactly one, the removed handle's path and
kind match the request, the relative order of the remaining children is preserved, and a
subsequent `find_node` for the same path and kind on the same node returns nothing.
Without the at-most-one-match hypothesis everything but the final `find_node` conjunct
still holds. -/
theorem remove_node_spec {P : Type} [DecidableEq P] (st : Store P) (i : Nat) (path : P)
    (k : Option FsNodeType) (self : FsNode P) (rid : Nat)
    (hself : st[i]? = some self)
    (huniq : self.children.countP (node_matches st path k) ≤ 1)
    (hrem : (remove_node st i path k).1 = some rid) :
    ∃ l₁ l₂ node,
      self.children = l₁ ++ rid :: l₂ ∧
      st[rid]? = some node ∧ node.path = path ∧
      (∀ kk, k = some kk → node.node_type = kk) ∧
      (remove_node st i path k).2[i]? = some { self with children := l₁ ++ l₂ } ∧
      (l₁ ++ l₂).length + 1 = self.children.length ∧
      (find_node (remove_node st i path k).2 i path k).1 = none := by
  cases hidx : self.children.findIdx? (node_matches st path k) with
  | none => simp [remove_node, hself, hidx] at hrem
  | some pos =>
      have hrm : remove_node st i path k =
          (self.children[pos]?,
            st.set i { self with children := self.children.eraseIdx pos }) := by
        simp only [remove_node, hself, hidx]
      obtain ⟨l₁, l₂, a, hsplit, hlen, hpa, hl₁⟩ := findIdx_go_split _ _ _ _ hidx
      rw [Nat.add_zero] at hlen
      have hget : self.children[pos]? = some a := by
        rw [hsplit, ← hlen]; exact getElem?_append_middle l₁ l₂ a
      have hrid : rid = a := by
        rw [hrm] at hrem
        have h2 : self.children[pos]? = some rid := hrem
        rw [hget] at h2
        exact (Option.some_injective _ h2).symm
      subst hrid
      have herase : self.children.eraseIdx pos = l₁ ++ l₂ := by
        rw [hsplit, ← hlen]; exact eraseIdx_append_middle l₁ l₂ rid
      obtain ⟨node, hnode, hpath, hkind⟩ := (node_matches_iff st path k rid).mp hpa
      have hi : i < st.length := (List.getElem?_eq_some.mp hself).1
      refine ⟨l₁, l₂, node, hsplit, hnode, hpath, ?_, ?_, ?_, ?_⟩
      · intro kk hkk
        rcases hkind with h | h
        · exact absurd (hkk ▸ h) (by simp)
        · rw [hkk] at h
          exact Option.some_injective _ h.symm
      · rw [hrm, herase]
        exact List.getElem?_set_self hi
      · rw [hsplit]; simp [Nat.add_comm, Nat.add_assoc, Nat.add_left_comm]
      · have hcount : self.children.countP (node_matches st path k) =
            l₁.countP (node_matches st path k) + (l₂.countP (node_matches st path k) + 1) := by
          rw [hsplit, List.countP_append, List.countP_cons_of_pos _ _ hpa]
        have hl₂ : l₂.countP (node_matches st path k) = 0 := by omega
        have hall : ∀ x ∈ l₁ ++ l₂, node_matches st path k x = false := by
          intro x hx
          rcases List.mem_append.mp hx with hx | hx
          · exact hl₁ x hx
          · cases hxm : node_matches st path k x with
            | false => rfl
            | true =>
                exact absurd hxm (by
                  simpa using List.countP_eq_zero.mp hl₂ x hx)
        rw [hrm]
        have hset : (st.set i { self with children := self.children.eraseIdx pos })[i]? =
            some { self with children := self.children.eraseIdx pos } :=
          List.getElem?_set_self hi
        simp only [find_node, hset]
        rw [herase]
        refine List.find?_eq_none.mpr fun x hx => ?_
        rw [node_matches_set_children st i self hself _ path k x]
        simp [hall x hx]

theorem remove_node_spec_witness :
    ∃ l₁ l₂ node,
      ([1, 2] : List Nat) = l₁ ++ 1 :: l₂ ∧
      demoStore[(1 : Nat)]? = some node ∧ node.path = 5 ∧
      (∀ kk, (some FsNodeType.File : Option FsNodeType) = some kk → node.node_type = kk) ∧
      (remove_node demoStore 0 (5 : Nat) (some .File)).2[(0 : Nat)]? =
        some { (⟨"r", 0, .Directory, none, [1, 2]⟩ : FsNode Nat) with children := l₁ ++ l₂ } ∧
      (l₁ ++ l₂).length + 1 = ([1, 2] : List Nat).length ∧
      (find_node (remove_node demoStore 0 (5 : Nat) (some .File)).2 0 (5 : Nat)
        (some .File)).1 = none :=
  remove_node_spec demoStore 0 (5 : Nat) (some .File)
    ⟨"r", 0, .Directory, none, [1, 2]⟩ 1 rfl (by decide) (by decide)

/-- The name computation at the head of `create_node_from_path`:
`path.file_name()` followed by `to_str()`. -/
def name_of {P O : Type} (fs : Fs P O) (path : P) : Option String :=
  (fs.file_name path).bind fs.to_str

/-- The classification step of `create_node_from_path`: `File` when `path.is_file()`,
`Directory` in every other case. -/
def classify {P O : Type} (fs : Fs P O) (path : P) : FsNodeType :=
  if fs.is_file path then FsNodeType.File else FsNodeType.Directory

/-- Store evolution where existing cells are untouched and cells are only appended:
how a store changes across a `create_node_from_path` call, seen from the caller. -/
def Grows {P : Type} (st st' : Store P) : Prop :=
  st.length ≤ st'.length ∧ ∀ j, j < st.length → st'[j]? = st[j]?

theorem grows_refl {P : Type} (st : Store P) : Grows st st :=
  ⟨Nat.le_refl _, fun _ _ => rfl⟩

theorem grows_trans {P : Type} {st₁ st₂ st₃ : Store P} (h₁ : Grows st₁ st₂)
    (h₂ : Grows st₂ st₃) : Grows st₁ st₃ :=
  ⟨Nat.le_trans h₁.1 h₂.1, fun j hj => (h₂.2 j (Nat.lt_of_lt_of_le hj h₁.1)).trans (h₁.2 j hj)⟩

/-- Store evolution where every existing cell persists with the same `name`, `path`,
`node_type` and `parent`, its `children` only ever being appended to: how a store
changes across any step of the build. -/
def Evolves {P : Type} (st st' : Store P) : Prop :=
  st.length ≤ st'.length ∧
  ∀ (j : Nat) (node : FsNode P), st[j]? = some node →
    ∃ ext, st'[j]? = some { node with children := node.children ++ ext }

theorem evolves_refl {P : Type} (st : Store P) : Evolves st st :=
  ⟨Nat.le_refl _, fun _ node h => ⟨[], by simpa using h⟩⟩

theorem evolves_trans {P : Type} {st₁ st₂ st₃ : Store P} (h₁ : Evolves st₁ st₂)
    (h₂ : Evolves st₂ st₃) : Evolves st₁ st₃ := by
  refine ⟨Nat.le_trans h₁.1 h₂.1, fun j node h => ?_⟩
  obtain ⟨ext₁, hmid⟩ := h₁.2 j node h
  obtain ⟨ext₂, hend⟩ := h₂.2 j _ hmid
  exact ⟨ext₁ ++ ext₂, by simpa [List.append_assoc] using hend⟩

theorem grows_evolves {P : Type} {st st' : Store P} (h : Grows st st') : Evolves st st' := by
  refine ⟨h.1, fun j node hj => ⟨[], ?_⟩⟩
  have hlt : j < st.length := (List.getElem?_eq_some.mp hj).1
  rw [h.2 j hlt, hj]
  simp

theorem storeModify_length {P : Type} (st : Store P) (i : Nat) (f : FsNode P → FsNode P) :
    (storeModify st i f).length = st.length := by
  unfold storeModify
  cases st[i]? <;> simp

theorem storeModify_getElem_ne {P : Type} (st : Store P) (i : Nat) (f : FsNode P → FsNode P)
    (j : Nat) (h : i ≠ j) : (storeModify st i f)[j]? = st[j]? := by
  unfold storeModify
  cases st[i]? with
  | none => rfl
  | some n => exact List.getElem?_set_ne h

theorem storeModify_getElem_self {P : Type} (st : Store P) (i : Nat)
    (f : FsNode P → FsNode P) (n : FsNode P) (h : st[i]? = some n) :
    (storeModify st i f)[i]? = some (f n) := by
  unfold storeModify
  rw [h]
  exact List.getElem?_set_self (List.getElem?_eq_some.mp h).1

theorem evolves_push_child {P : Type} (st : Store P) (i cid : Nat) :
    Evolves st (storeModify st i (fun n => { n with children := n.children ++ [cid] })) := by
  refine ⟨by rw [storeModify_length], fun j node hj => ?_⟩
  by_cases hij : i = j
  · subst hij
    exact ⟨[cid], storeModify_getElem_self st i _ node hj⟩
  · exact ⟨[], by rw [storeModify_getElem_ne st i _ j hij, hj]; simp⟩

theorem grows_alloc {P : Type} (st : Store P) (node : FsNode P) :
    Grows st (st ++ [node]) := by
  refine ⟨by simp, fun j hj => ?_⟩
  rw [List.getElem?_append_left hj]

/-- Across the child loop, cells other than the enclosing node are only read or
appended; the enclosing node's cell keeps its identity fields and its children list is
only extended. -/
theorem build_entries_below {P : Type} (build : P → Store P → Option Nat × Store P)
    (node_id : Nat) (Hg : ∀ p s, Grows s (build p s).2) :
    ∀ (entries : List (Option P)) (st : Store P),
      st.length ≤ (build_entries build node_id entries st).length ∧
      ∀ j, j < st.length → j ≠ node_id →
        (build_entries build node_id entries st)[j]? = st[j]? := by
  intro entries
  induction entries with
  | nil => exact fun st => ⟨Nat.le_refl _, fun _ _ _ => rfl⟩
  | cons e es ih =>
      intro st
      cases e with
      | none => exact ih st
      | some p =>
          show st.length ≤ (match build p st with
              | (some child_id, st1) => _ | (none, st1) => _ : Store P).length ∧ _
          cases hb : build p st with
          | mk r st1 =>
              have hg : Grows st st1 := by have := Hg p st; rwa [hb] at this
              cases r with
              | none =>
                  simp only [build_entries, hb]
                  obtain ⟨hlen, hbelow⟩ := ih st1
                  exact ⟨Nat.le_trans hg.1 hlen, fun j hj hjn =>
                    (hbelow j (Nat.lt_of_lt_of_le hj hg.1) hjn).trans (hg.2 j hj)⟩
              | some cid =>
                  simp only [build_entries, hb]
                  set st2 := storeModify st1 node_id
                    (fun n => { n with children := n.children ++ [cid] }) with hst2
                  obtain ⟨hlen, hbelow⟩ := ih st2
                  have hlen2 : st1.length = st2.length := by rw [hst2, storeModify_length]
                  refine ⟨Nat.le_trans hg.1 (hlen2 ▸ hlen), fun j hj hjn => ?_⟩
                  have h2 : st2[j]? = st1[j]? := storeModify_getElem_ne st1 node_id _ j
                    (fun h => hjn h.symm)
                  exact ((hbelow j (hlen2 ▸ Nat.lt_of_lt_of_le hj hg.1) hjn).trans h2).trans
                    (hg.2 j hj)

/-- The child loop leaves the enclosing node's identity fields alone and only appends to
its children list. -/
theorem build_entries_node {P : Type} (build : P → Store P → Option Nat × Store P)
    (node_id : Nat) (Hg : ∀ p s, Grows s (build p s).2) :
    ∀ (entries : List (Option P)) (st : Store P) (n : FsNode P),
      st[node_id]? = some n →
      ∃ ext, (build_entries build node_id entries st)[node_id]? =
        some { n with children := n.children ++ ext } := by
  intro entries
  induction entries with
  | nil => exact fun st n h => ⟨[], by simpa using h⟩
  | cons e es ih =>
      intro st n hn
      cases e with
      | none => exact ih st n hn
      | some p =>
          cases hb : build p st with
          | mk r st1 =>
              have hg : Grows st st1 := by have := Hg p st; rwa [hb] at this
              have hlt : node_id < st.length := (List.getElem?_eq_some.mp hn).1
              have hn1 : st1[node_id]? = some n := (hg.2 node_id hlt).trans hn
              cases r with
              | none =>
                  simp only [build_entries, hb]
                  exact ih st1 n hn1
              | some cid =>
                  simp only [build_entries, hb]
                  obtain ⟨ext, hext⟩ := ih
                    (storeModify st1 node_id (fun m => { m with children := m.children ++ [cid] }))
                    { n with children := n.children ++ [cid] }
                    (storeModify_getElem_self st1 node_id _ n hn1)
                  exact ⟨[cid] ++ ext, by simpa [List.append_assoc] using hext⟩

/-- One-step unfolding of `create_node_from_path` at nonzero fuel, organised by the
name computation, the `is_file` classification and the `read_dir` outcome. -/
theorem create_succ_eq {P O : Type} [DecidableEq P] (fs : Fs P O) (fuel : Nat) (path : P)
    (parent : Option Nat) (st : Store P) :
    create_node_from_path fs (fuel + 1) path parent st =
      match name_of fs path with
      | none => (none, st)
      | some name =>
          if fs.is_file path then
            (some st.length, st ++ [FsNode.new name path FsNodeType.File parent []])
          else
            match fs.read_dir path with
            | none => (some st.length, st ++ [FsNode.new name path FsNodeType.Directory parent []])
            | some entries =>
                (some st.length,
                  build_entries (fun p s => create_node_from_path fs fuel p (some st.length) s)
                    st.length entries
                    (st ++ [FsNode.new name path FsNodeType.Directory parent []])) := by
  unfold name_of
  cases hfn : fs.file_name path with
  | none => simp only [create_node_from_path, hfn, Option.bind]
  | some o =>
      cases hts : fs.to_str o with
      | none => simp only [create_node_from_path, hfn, hts, Option.bind]
      | some name =>
          by_cases hisf : fs.is_file path
          · simp [create_node_from_path, hfn, hts, hisf, alloc, Option.bind]
          · cases hrd : fs.read_dir path with
            | none => simp [create_node_from_path, hfn, hts, hisf, hrd, alloc, Option.bind]
            | some entries =>
                simp [create_node_from_path, hfn, hts, hisf, hrd, alloc, Option.bind]

/-- A build call only ever appends cells to the store, leaving existing cells untouched. -/
theorem create_grows {P O : Type} [DecidableEq P] (fs : Fs P O) :
    ∀ (fuel : Nat) (path : P) (parent : Option Nat) (st : Store P),
      Grows st (create_node_from_path fs fuel path parent st).2 := by
  intro fuel
  induction fuel with
  | zero => exact fun path parent st => grows_refl st
  | succ fuel ih =>
      intro path parent st
      rw [create_succ_eq]
      cases hname : name_of fs path with
      | none => exact grows_refl st
      | some name =>
          by_cases hisf : fs.is_file path
          · simp only [if_pos hisf]
            exact grows_alloc st _
          · simp only [if_neg hisf]
            cases hrd : fs.read_dir path with
            | none => exact grows_alloc st _
            | some entries =>
                have hbe := build_entries_below
                  (fun p s => create_node_from_path fs fuel p (some st.length) s) st.length
                  (fun p s => ih p (some st.length) s) entries
                  (st ++ [FsNode.new name path FsNodeType.Directory parent []])
                have hga := grows_alloc st (FsNode.new name path FsNodeType.Directory parent [])
                refine ⟨Nat.le_trans hga.1 (by simpa using hbe.1), fun j hj => ?_⟩
                have hjne : j ≠ st.length := Nat.ne_of_lt hj
                have h1 := hbe.2 j (by simp; omega) hjne
                exact h1.trans (hga.2 j hj)

/-- The builder fails — at any positive fuel — exactly when the name computation fails,
and on failure the store is untouched. -/
theorem create_none_iff {P O : Type} [DecidableEq P] (fs : Fs P O) (fuel : Nat) (path : P)
    (parent : Option Nat) (st : Store P) :
    ((create_node_from_path fs (fuel + 1) path parent st).1 = none ↔
      name_of fs path = none) ∧
    ((create_node_from_path fs (fuel + 1) path parent st).1 = none →
      (create_node_from_path fs (fuel + 1) path parent st).2 = st) := by
  rw [create_succ_eq]
  cases hname : name_of fs path with
  | none => exact ⟨by simp, fun _ => rfl⟩
  | some name =>
      by_cases hisf : fs.is_file path
      · simp [if_pos hisf]
      · simp only [if_neg hisf]
        cases hrd : fs.read_dir path with
        | none => simp
        | some entries => simp

/-- On success the builder returns the handle of the freshly allocated cell, which holds
the computed name, the given path, the `is_file`-based classification and the given
parent reference; its children are whatever the child loop appended. -/
theorem create_some {P O : Type} [DecidableEq P] (fs : Fs P O) (fuel : Nat) (path : P)
    (parent : Option Nat) (st : Store P) (name : String)
    (hname : name_of fs path = some name) :
    (create_node_from_path fs (fuel + 1) path parent st).1 = some st.length ∧
    ∃ cs, (create_node_from_path fs (fuel + 1) path parent st).2[st.length]? =
      some (FsNode.new name path (classify fs path) parent cs) := by
  rw [create_succ_eq, hname]
  by_cases hisf : fs.is_file path
  · refine ⟨by simp [if_pos hisf], ⟨[], ?_⟩⟩
    simp only [if_pos hisf, classify, List.getElem?_concat_length]
  · simp only [if_neg hisf]
    cases hrd : fs.read_dir path with
    | none =>
        refine ⟨rfl, ⟨[], ?_⟩⟩
        simp only [classify, if_neg hisf, List.getElem?_concat_length]
    | some entries =>
        refine ⟨rfl, ?_⟩
        have hnode : (st ++ [FsNode.new name path FsNodeType.Directory parent []])[st.length]? =
            some (FsNode.new name path FsNodeType.Directory parent []) :=
          List.getElem?_concat_length st _
        obtain ⟨ext, hext⟩ := build_entries_node
          (fun p s => create_node_from_path fs fuel p (some st.length) s) st.length
          (fun p s => create_grows fs fuel p (some st.length) s) entries
          (st ++ [FsNode.new name path FsNodeType.Directory parent []]) _ hnode
        refine ⟨ext, ?_⟩
        simpa [classify, if_neg hisf, FsNode.new] using hext

/-- Concrete filesystem for witnesses: directory `10` holds file `11` and directory
`12`, which holds file `13`; path `14` is a directory whose enumeration fails; path `99`
has no final component; any path whose component is `98` is not decodable as text. -/
def demoFs : Fs Nat Nat where
  file_name := fun p => if p = 99 then none else some p
  to_str := fun o => if o = 98 then none else some (toString o)
  is_file := fun p => p == 11 || p == 13
  is_dir := fun p => p == 10 || p == 12 || p == 14
  read_dir := fun p =>
    if p = 10 then some [some 11, some 12]
    else if p = 12 then some [some 13]
    else none

/-- Concrete filesystem where path `7` does not exist at all: it is neither a file nor
a directory, and enumerating it fails. -/
def ghostFs : Fs Nat Nat where
  file_name := fun p => some p
  to_str := fun _ => some "ghost"
  is_file := fun _ => false
  is_dir := fun _ => false
  read_dir := fun _ => none

/-- C3 counterexample: on a path that exists as a directory according to no filesystem
query (`is_dir` is false), the built node's kind is still `Directory`, because the code
classifies by `is_file` alone — the claim's "File otherwise" direction fails. -/
theorem create_classify_cex :
    ghostFs.is_dir 7 = false ∧
    (create_node_from_path ghostFs 1 (7 : Nat) none []).1 = some 0 ∧
    (create_node_from_path ghostFs 1 (7 : Nat) none []).2[(0 : Nat)]? =
      some ⟨"ghost", 7, FsNodeType.Directory, none, []⟩ := by
  decide

/-- C3 (amended): the constructed node's kind is `File` iff the real filesystem reports
the path as an existing regular file (`is_file`), and `Directory` in every other case —
including paths that do not exist at all. -/
theorem create_node_type {P O : Type} [DecidableEq P] (fs : Fs P O) (fuel : Nat)
    (path : P) (parent : Option Nat) (st : Store P) (id : Nat)
    (hid : (create_node_from_path fs (fuel + 1) path parent st).1 = some id) :
    ∃ node, (create_node_from_path fs (fuel + 1) path parent st).2[id]? = some node ∧
      node.node_type = classify fs path ∧
      (node.node_type = FsNodeType.File ↔ fs.is_file path = true) := by
  cases hname : name_of fs path with
  | none =>
      exact absurd (((create_none_iff fs fuel path parent st).1).mpr hname) (by simp [hid])
  | some name =>
      obtain ⟨hsome, cs, hnode⟩ := create_some fs fuel path parent st name hname
      have hideq : id = st.length := Option.some_injective _ (hid.symm.trans hsome)
      subst hideq
      refine ⟨FsNode.new name path (classify fs path) parent cs, hnode, rfl, ?_⟩
      unfold classify FsNode.new
      by_cases hisf : fs.is_file path <;> simp [hisf]

theorem create_node_type_witness :
    ∃ node, (create_node_from_path demoFs 1 (11 : Nat) none []).2[(0 : Nat)]? = some node ∧
      node.node_type = classify demoFs 11 ∧
      (node.node_type = FsNodeType.File ↔ demoFs.is_file 11 = true) :=
  create_node_type demoFs 0 11 none [] 0 rfl

/-- C4: at any positive fuel the builder returns "no node" exactly when the path has no
final name component or that component cannot be interpreted as text; in every other
case it returns a handle to a node whose path is the requested path. -/
theorem create_root_iff {P O : Type} [DecidableEq P] (fs : Fs P O) (fuel : Nat)
    (path : P) (parent : Option Nat) (st : Store P) :
    ((create_node_from_path fs (fuel + 1) path parent st).1 = none ↔
      fs.file_name path = none ∨
        ∃ o, fs.file_name path = some o ∧ fs.to_str o = none) ∧
    (∀ id, (create_node_from_path fs (fuel + 1) path parent st).1 = some id →
      ∃ node, (create_node_from_path fs (fuel + 1) path parent st).2[id]? = some node ∧
        node.path = path) := by
  have hiff : name_of fs path = none ↔
      fs.file_name path = none ∨ ∃ o, fs.file_name path = some o ∧ fs.to_str o = none := by
    unfold name_of
    cases hfn : fs.file_name path with
    | none => simp
    | some o => simp [Option.bind, hfn]
  constructor
  · exact ((create_none_iff fs fuel path parent st).1).trans hiff
  · intro id hid
    cases hname : name_of fs path with
    | none =>
        exact absurd (((create_none_iff fs fuel path parent st).1).mpr hname) (by simp [hid])
    | some name =>
        obtain ⟨hsome, cs, hnode⟩ := create_some fs fuel path parent st name hname
        have hideq : id = st.length := Option.some_injective _ (hid.symm.trans hsome)
        subst hideq
        exact ⟨FsNode.new name path (classify fs path) parent cs, hnode, rfl⟩

theorem create_root_iff_witness :
    ((create_node_from_path demoFs 1 (99 : Nat) none []).1 = none ↔
      demoFs.file_name 99 = none ∨
        ∃ o, demoFs.file_name 99 = some o ∧ demoFs.to_str o = none) ∧
    (∀ id, (create_node_from_path demoFs 1 (99 : Nat) none []).1 = some id →
      ∃ node, (create_node_from_path demoFs 1 (99 : Nat) none []).2[id]? = some node ∧
        node.path = 99) :=
  create_root_iff demoFs 0 99 none []

/-- C5: when a path classified as a directory cannot be enumerated, the builder still
returns a handle (no error reaches the caller) and the node is the directory node with
zero children, freshly appended to the store. -/
theorem create_unreadable_dir {P O : Type} [DecidableEq P] (fs : Fs P O) (fuel : Nat)
    (path : P) (parent : Option Nat) (st : Store P) (name : String)
    (hname : name_of fs path = some name)
    (hfile : fs.is_file path = false)
    (hrd : fs.read_dir path = none) :
    create_node_from_path fs (fuel + 1) path parent st =
      (some st.length, st ++ [FsNode.new name path FsNodeType.Directory parent []]) := by
  rw [create_succ_eq, hname]
  simp [hfile, hrd]

theorem create_unreadable_dir_witness :
    create_node_from_path demoFs 1 (14 : Nat) none [] =
      (some 0, [] ++ [FsNode.new "14" 14 FsNodeType.Directory none []]) :=
  create_unreadable_dir demoFs 0 14 none [] "14" rfl rfl rfl

/-- C9: a path whose final component yields a valid name but which does not exist on the
filesystem (neither `is_file` nor `is_dir` holds, and enumeration fails) still builds a
node: it is classified `Directory`, has zero children, and the nonexistence is never
reported — the call succeeds. -/
theorem create_nonexistent_path {P O : Type} [DecidableEq P] (fs : Fs P O) (fuel : Nat)
    (path : P) (parent : Option Nat) (st : Store P) (name : String)
    (hname : name_of fs path = some name)
    (hfile : fs.is_file path = false)
    (_hdir : fs.is_dir path = false)
    (hrd : fs.read_dir path = none) :
    create_node_from_path fs (fuel + 1) path parent st =
      (some st.length, st ++ [FsNode.new name path FsNodeType.Directory parent []]) := by
  rw [create_succ_eq, hname]
  simp [hfile, hrd]

theorem create_nonexistent_path_witness :
    create_node_from_path ghostFs 1 (7 : Nat) none [] =
      (some 0, [] ++ [FsNode.new "ghost" 7 FsNodeType.Directory none []]) :=
  create_nonexistent_path ghostFs 0 7 none [] "ghost" rfl rfl rfl rfl

/-- When every entry of the loop is an `Ok` entry whose recursive build succeeds, the
child loop appends exactly one child handle per entry. -/
theorem build_entries_count {P : Type} (build : P → Store P → Option Nat × Store P)
    (node_id : Nat) (Hg : ∀ p s, Grows s (build p s).2) :
    ∀ (entries : List (Option P)) (st : Store P) (n : FsNode P),
      (∀ e ∈ entries, ∃ p, e = some p ∧ ∀ s : Store P, (build p s).1 = some s.length) →
      st[node_id]? = some n →
      ∃ ext, (build_entries build node_id entries st)[node_id]? =
        some { n with children := n.children ++ ext } ∧ ext.length = entries.length := by
  intro entries
  induction entries with
  | nil => exact fun st n _ h => ⟨[], by simpa using h, rfl⟩
  | cons e es ih =>
      intro st n hgood hn
      obtain ⟨p, rfl, hsucc⟩ := hgood e (List.mem_cons_self e es)
      cases hb : build p st with
      | mk r st1 =>
          have hr : r = some st.length := by
            have := hsucc st; rwa [hb] at this
          subst hr
          simp only [build_entries, hb]
          have hg : Grows st st1 := by have := Hg p st; rwa [hb] at this
          have hlt : node_id < st.length := (List.getElem?_eq_some.mp hn).1
          have hn1 : st1[node_id]? = some n := (hg.2 node_id hlt).trans hn
          obtain ⟨ext, hext, hlen⟩ := ih
            (storeModify st1 node_id (fun m => { m with children := m.children ++ [st.length] }))
            { n with children := n.children ++ [st.length] }
            (fun e he => hgood e (List.mem_cons_of_mem _ he))
            (storeModify_getElem_self st1 node_id _ n hn1)
          exact ⟨[st.length] ++ ext, by simpa [List.append_assoc] using hext, by simp [hlen]⟩

/-- Concrete filesystem for the C6 counterexample: directory `0` enumerates exactly one
entry, path `1`, but that entry's path has no final name component. -/
def skipFs : Fs Nat Nat where
  file_name := fun p => if p = 1 then none else some p
  to_str := fun o => some (toString o)
  is_file := fun _ => false
  is_dir := fun p => p == 0
  read_dir := fun p => if p = 0 then some [some 1] else none

/-- C6 counterexample: a directory containing one top-level entry builds a root node with
zero children, because the entry cannot be named and is silently skipped — "exactly N
children" fails as stated. -/
theorem create_children_count_cex :
    skipFs.read_dir 0 = some [some 1] ∧
    (create_node_from_path skipFs 2 (0 : Nat) none []).1 = some 0 ∧
    (create_node_from_path skipFs 2 (0 : Nat) none []).2[(0 : Nat)]? =
      some ⟨"0", 0, FsNodeType.Directory, none, []⟩ := by
  decide

/-- C6 (amended): for a directory containing N top-level entries, all of which are
readable and have final components decodable as text, the built root node has exactly N
children, one appended per entry in enumeration order; entries that cannot be read or
named are skipped. -/
theorem create_children_count {P O : Type} [DecidableEq P] (fs : Fs P O) (fuel : Nat)
    (path : P) (parent : Option Nat) (st : Store P) (name : String)
    (entries : List (Option P))
    (hname : name_of fs path = some name)
    (hfile : fs.is_file path = false)
    (hrd : fs.read_dir path = some entries)
    (hentries : ∀ e ∈ entries, ∃ p, e = some p ∧ (name_of fs p).isSome) :
    (create_node_from_path fs (fuel + 2) path parent st).1 = some st.length ∧
    ∃ node, (create_node_from_path fs (fuel + 2) path parent st).2[st.length]? =
      some node ∧ node.children.length = entries.length := by
  rw [show fuel + 2 = (fuel + 1) + 1 from rfl, create_succ_eq, hname]
  simp only [hfile, Bool.false_eq_true, if_false, hrd]
  refine ⟨by simp, ?_⟩
  have hnode : (st ++ [FsNode.new name path FsNodeType.Directory parent []])[st.length]? =
      some (FsNode.new name path FsNodeType.Directory parent []) :=
    List.getElem?_concat_length st _
  obtain ⟨ext, hext, hlen⟩ := build_entries_count
    (fun p s => create_node_from_path fs (fuel + 1) p (some st.length) s) st.length
    (fun p s => create_grows fs (fuel + 1) p (some st.length) s) entries
    (st ++ [FsNode.new name path FsNodeType.Directory parent []])
    (FsNode.new name path FsNodeType.Directory parent [])
    (fun e he => by
      obtain ⟨p, rfl, hok⟩ := hentries e he
      obtain ⟨nm, hnm⟩ := Option.isSome_iff_exists.mp hok
      exact ⟨p, rfl, fun s => (create_some fs fuel p (some st.length) s nm hnm).1⟩)
    hnode
  exact ⟨_, hext, by simpa [FsNode.new] using hlen⟩

theorem create_children_count_witness :
    (create_node_from_path demoFs 2 (10 : Nat) none []).1 = some 0 ∧
    ∃ node, (create_node_from_path demoFs 2 (10 : Nat) none []).2[(0 : Nat)]? =
      some node ∧ node.children.length = ([some 11, some 12] : List (Option Nat)).length :=
  create_children_count demoFs 0 10 none [] "10" [some 11, some 12] rfl rfl rfl
    (fun e he => by
      rcases List.mem_cons.mp he with rfl | he
      · exact ⟨11, rfl, by decide⟩
      · rcases List.mem_cons.mp he with rfl | he
        · exact ⟨12, rfl, by decide⟩
        · simp at he)

/-- Parent consistency at handle `j`: if the cell resolves and carries a parent
reference, the parent resolves to a node whose children collection contains `j`. -/
def ConsistentAt {P : Type} (st : Store P) (j : Nat) : Prop :=
  ∀ node : FsNode P, st[j]? = some node → ∀ pid, node.parent = some pid →
    ∃ pnode, st[pid]? = some pnode ∧ j ∈ pnode.children

/-- Parent consistency persists across build steps: cells keep their parent references
and children collections only grow. -/
theorem consistentAt_evolves {P : Type} {st st' : Store P} (hev : Evolves st st')
    (j : Nat) (hj : j < st.length) (hc : ConsistentAt st j) : ConsistentAt st' j := by
  intro node' h' pid hp
  have hjn : st[j]? = some st[j] := List.getElem?_eq_getElem hj
  obtain ⟨ext, hext⟩ := hev.2 j st[j] hjn
  rw [h'] at hext
  cases Option.some_injective _ hext
  obtain ⟨pnode, hpn, hmem⟩ := hc st[j] hjn pid hp
  obtain ⟨ext₂, hpn₂⟩ := hev.2 pid pnode hpn
  exact ⟨_, hpn₂, List.mem_append_left _ hmem⟩

theorem build_entries_evolves {P : Type} (build : P → Store P → Option Nat × Store P)
    (node_id : Nat) (Hg : ∀ p s, Grows s (build p s).2) :
    ∀ (entries : List (Option P)) (st : Store P),
      Evolves st (build_entries build node_id entries st) := by
  intro entries
  induction entries with
  | nil => exact fun st => evolves_refl st
  | cons e es ih =>
      intro st
      cases e with
      | none => exact ih st
      | some p =>
          cases hb : build p st with
          | mk r st1 =>
              have hg : Grows st st1 := by have := Hg p st; rwa [hb] at this
              cases r with
              | none =>
                  simp only [build_entries, hb]
                  exact evolves_trans (grows_evolves hg) (ih st1)
              | some cid =>
                  simp only [build_entries, hb]
                  exact evolves_trans (grows_evolves hg)
                    (evolves_trans (evolves_push_child st1 node_id cid) (ih _))

/-- Every cell the child loop allocates is parent-consistent once the loop finishes:
each successfully built child carries `parent = some node_id` and is immediately pushed
onto `node_id`'s children. -/
theorem build_entries_consistent {P : Type} (build : P → Store P → Option Nat × Store P)
    (node_id : Nat) (Hg : ∀ p s, Grows s (build p s).2)
    (Hcons : ∀ p s j, s.length ≤ j → (build p s).1 ≠ some j → ConsistentAt (build p s).2 j)
    (Hsome : ∀ p s id, (build p s).1 = some id → id = s.length ∧
      ∃ node : FsNode P, (build p s).2[id]? = some node ∧ node.parent = some node_id) :
    ∀ (entries : List (Option P)) (st : Store P), node_id < st.length →
      ∀ j, st.length ≤ j → ConsistentAt (build_entries build node_id entries st) j := by
  intro entries
  induction entries with
  | nil =>
      intro st _ j hj node hnode
      simp only [build_entries] at hnode
      rw [List.getElem?_len_le hj] at hnode
      exact absurd hnode (by simp)
  | cons e es ih =>
      intro st hnid j hj
      cases e with
      | none => exact ih st hnid j hj
      | some p =>
          cases hb : build p st with
          | mk r st1 =>
              have hg : Grows st st1 := by have := Hg p st; rwa [hb] at this
              cases r with
              | none =>
                  simp only [build_entries, hb]
                  by_cases hj1 : st1.length ≤ j
                  · exact ih st1 (Nat.lt_of_lt_of_le hnid hg.1) j hj1
                  · have hcj : ConsistentAt st1 j := by
                      have := Hcons p st j hj (by rw [hb]; simp)
                      rwa [hb] at this
                    exact consistentAt_evolves
                      (build_entries_evolves build node_id Hg es st1) j
                      (Nat.lt_of_not_le hj1) hcj
              | some cid =>
                  have hsome := Hsome p st cid (by rw [hb])
                  rw [hb] at hsome
                  obtain ⟨hcid, cnode, hcnode, hcpar⟩ := hsome
                  subst hcid
                  simp only [build_entries, hb]
                  set st2 := storeModify st1 node_id
                    (fun n => { n with children := n.children ++ [st.length] }) with hst2
                  have hlen2 : st2.length = st1.length := by rw [hst2, storeModify_length]
                  have hnid2 : node_id < st2.length :=
                    hlen2 ▸ Nat.lt_of_lt_of_le hnid hg.1
                  by_cases hj2 : st2.length ≤ j
                  · exact ih st2 hnid2 j hj2
                  · have hjlt : j < st2.length := Nat.lt_of_not_le hj2
                    have hcj2 : ConsistentAt st2 j := by
                      by_cases hjc : j = st.length
                      · subst hjc
                        intro node hnode pid hp
                        have hne : node_id ≠ st.length := Nat.ne_of_lt hnid
                        have hnode2 : st2[st.length]? = some cnode := by
                          rw [hst2, storeModify_getElem_ne st1 node_id _ _ hne]
                          exact hcnode
                        rw [hnode2] at hnode
                        cases Option.some_injective _ hnode
                        rw [hcpar] at hp
                        cases Option.some_injective _ hp
                        have hn0 : st[node_id]? = some st[node_id] :=
                          List.getElem?_eq_getElem hnid
                        have hn1 : st1[node_id]? = some st[node_id] :=
                          (hg.2 node_id hnid).trans hn0
                        refine ⟨_, by rw [hst2]; exact storeModify_getElem_self st1 node_id _ _ hn1, ?_⟩
                        exact List.mem_append_right _ (List.mem_singleton.mpr rfl)
                      · have hcj1 : ConsistentAt st1 j := by
                          have := Hcons p st j hj (by rw [hb]; simpa using fun h => hjc h.symm)
                          rwa [hb] at this
                        exact consistentAt_evolves (hst2 ▸ evolves_push_child st1 node_id st.length)
                          j (hlen2 ▸ hjlt) hcj1
                    exact consistentAt_evolves
                      (build_entries_evolves build node_id Hg es st2) j hjlt hcj2

/-- Every cell `create_node_from_path` allocates other than the returned root is
parent-consistent in the final store, and the returned root carries exactly the parent
reference supplied by the caller. -/
theorem create_consistent {P O : Type} [DecidableEq P] (fs : Fs P O) :
    ∀ (fuel : Nat) (path : P) (parent : Option Nat) (st : Store P),
      (∀ j, st.length ≤ j → (create_node_from_path fs fuel path parent st).1 ≠ some j →
        ConsistentAt (create_node_from_path fs fuel path parent st).2 j) ∧
      (∀ id, (create_node_from_path fs fuel path parent st).1 = some id →
        id = st.length ∧ ∃ node : FsNode P,
          (create_node_from_path fs fuel path parent st).2[id]? = some node ∧
            node.parent = parent) := by
  intro fuel
  induction fuel with
  | zero =>
      intro path parent st
      refine ⟨fun j hj _ node hnode => ?_, fun id hid => by simp [create_node_from_path] at hid⟩
      rw [show (create_node_from_path fs 0 path parent st).2 = st from rfl,
        List.getElem?_len_le hj] at hnode
      exact absurd hnode (by simp)
  | succ fuel ih =>
      intro path parent st
      rw [create_succ_eq]
      cases hname : name_of fs path with
      | none =>
          refine ⟨fun j hj _ node hnode => ?_, fun id hid => by simp at hid⟩
          rw [show ((none : Option Nat), st).2 = st from rfl, List.getElem?_len_le hj] at hnode
          exact absurd hnode (by simp)
      | some name =>
          by_cases hisf : fs.is_file path
          · simp only [if_pos hisf]
            constructor
            · intro j hj hne node hnode pid hp
              have hj1 : st.length + 1 ≤ j := by
                rcases Nat.lt_or_ge j (st.length + 1) with h | h
                · exact absurd (Nat.le_antisymm hj (Nat.lt_succ_iff.mp h))
                    (fun he => hne (by simp [he]))
                · exact h
              rw [List.getElem?_len_le (by simpa using hj1)] at hnode
              exact absurd hnode (by simp)
            · intro id hid
              have hideq : id = st.length := Option.some_injective _ (by simpa using hid.symm)
              subst hideq
              exact ⟨rfl, FsNode.new name path FsNodeType.File parent [],
                List.getElem?_concat_length st _, rfl⟩
          · simp only [if_neg hisf]
            cases hrd : fs.read_dir path with
            | none =>
                constructor
                · intro j hj hne node hnode pid hp
                  have hj1 : st.length + 1 ≤ j := by
                    rcases Nat.lt_or_ge j (st.length + 1) with h | h
                    · exact absurd (Nat.le_antisymm hj (Nat.lt_succ_iff.mp h))
                        (fun he => hne (by simp [he]))
                    · exact h
                  rw [List.getElem?_len_le (by simpa using hj1)] at hnode
                  exact absurd hnode (by simp)
                · intro id hid
                  have hideq : id = st.length := Option.some_injective _ (by simpa using hid.symm)
                  subst hideq
                  exact ⟨rfl, FsNode.new name path FsNodeType.Directory parent [],
                    List.getElem?_concat_length st _, rfl⟩
            | some entries =>
                constructor
                · intro j hj hne
                  have hbc := build_entries_consistent
                    (fun p s => create_node_from_path fs fuel p (some st.length) s) st.length
                    (fun p s => create_grows fs fuel p (some st.length) s)
                    (fun p s j hj hne => (ih p (some st.length) s).1 j hj hne)
                    (fun p s id hid => (ih p (some st.length) s).2 id hid)
                    entries (st ++ [FsNode.new name path FsNodeType.Directory parent []])
                    (by simp)
                  have hj1 : st.length + 1 ≤ j := by
                    rcases Nat.lt_or_ge j (st.length + 1) with h | h
                    · exact absurd (Nat.le_antisymm hj (Nat.lt_succ_iff.mp h))
                        (fun he => hne (by simp [he]))
                    · exact h
                  exact hbc j (by simpa using hj1)
                · intro id hid
                  refine ⟨Option.some_injective _ (by simpa using hid.symm), ?_⟩
                  obtain ⟨ext, hext⟩ := build_entries_node
                    (fun p s => create_node_from_path fs fuel p (some st.length) s) st.length
                    (fun p s => create_grows fs fuel p (some st.length) s) entries
                    (st ++ [FsNode.new name path FsNodeType.Directory parent []])
                    (FsNode.new name path FsNodeType.Directory parent [])
                    (List.getElem?_concat_length st _)
                  have hideq : id = st.length := Option.some_injective _ (by simpa using hid.symm)
                  subst hideq
                  exact ⟨_, hext, rfl⟩

/-- C7: parent consistency.  (1) In a tree built by `create_node_from_path` from an
empty arena with no parent reference, every handle whose cell carries a parent reference
resolves it to a node whose children collection contains that handle.  (2) `add_child`
establishes the same invariant for the attached child: the fresh cell's parent reference
is the given parent, and the parent's children collection contains the fresh handle. -/
theorem parent_consistency :
    (∀ (P O : Type) [DecidableEq P] (fs : Fs P O) (fuel : Nat) (path : P)
        (rid : Nat) (stOut : Store P),
        create_node_from_path fs fuel path none [] = (some rid, stOut) →
        ∀ j, ConsistentAt stOut j) ∧
    (∀ (P : Type) (st : Store P) (p : Nat) (child : FsNode P), p < st.length →
        (∃ cnode : FsNode P, (add_child st p child)[st.length]? = some cnode ∧
          cnode.parent = some p) ∧
        (∃ pnode : FsNode P, (add_child st p child)[p]? = some pnode ∧
          st.length ∈ pnode.children)) := by
  constructor
  · intro P O _ fs fuel path rid stOut hcr j
    have h₁ : (create_node_from_path fs fuel path none []).1 = some rid := by rw [hcr]
    have h₂ : (create_node_from_path fs fuel path none []).2 = stOut := by rw [hcr]
    obtain ⟨hrid, node₀, hnode₀, hpar₀⟩ := (create_consistent fs fuel path none []).2 rid h₁
    by_cases hjr : j = rid
    · subst hjr
      intro node hnode pid hp
      rw [h₂] at hnode₀
      rw [hnode₀] at hnode
      cases Option.some_injective _ hnode
      rw [hpar₀] at hp
      exact absurd hp (by simp)
    · have := (create_consistent fs fuel path none []).1 j (by simp)
        (by rw [h₁]; simpa using fun h => hjr h.symm)
      rwa [h₂] at this
  · intro P st p child hp
    have hpne : p ≠ st.length := Nat.ne_of_lt hp
    constructor
    · refine ⟨{ child with parent := some p }, ?_, rfl⟩
      show (storeModify (st ++ [{ child with parent := some p }]) p _)[st.length]? = _
      rw [storeModify_getElem_ne _ p _ _ hpne]
      exact List.getElem?_concat_length st _
    · have hpn : st[p]? = some st[p] := List.getElem?_eq_getElem hp
      have hpn1 : (st ++ [{ child with parent := some p }])[p]? = some st[p] :=
        ((grows_alloc st _).2 p hp).trans hpn
      refine ⟨_, storeModify_getElem_self _ p _ _ hpn1, ?_⟩
      exact List.mem_append_right _ (List.mem_singleton.mpr rfl)

theorem parent_consistency_witness :
    ConsistentAt (create_node_from_path demoFs 3 (10 : Nat) none []).2 3 ∧
    (∃ pnode : FsNode Nat,
      (add_child demoStore 0 ⟨"c", 7, FsNodeType.File, none, []⟩)[(0 : Nat)]? = some pnode ∧
      (3 : Nat) ∈ pnode.children) :=
  ⟨parent_consistency.1 Nat Nat demoFs 3 10 0
      (create_node_from_path demoFs 3 (10 : Nat) none []).2 rfl 3,
   (parent_consistency.2 Nat demoStore 0 ⟨"c", 7, FsNodeType.File, none, []⟩ (by decide)).2⟩

end MC
